import Mathlib

/-!
Verification of the BuildSystemTerminal Sublime Text plugin (final revision:
`terminal_exec.py`, with the output-queue / listener machinery shared with
`BuildSystemTerminal.py`).  Python strings are embedded as `List Char`,
Python dicts (insertion ordered) as association lists, and the stateful
orchestrator (`TerminalExecCommand`) as an explicit state type with a step
function over events.
-/

namespace BST

/-! ## Output queue (`TerminalExecCommand.append_string` / `service_text_queue`)

`BLOCK_SIZE = 2**14`; `text_queue` is a deque of text chunks appended at the
right and drained from the left.  Each chunk additionally carries a ghost
list of the producers (`none` is Python's `None` producer argument) whose
`append_string` calls contributed text to it; the ghost tags do not
influence the computation. -/

def BLOCK_SIZE : Nat := 2 ^ 14

structure Chunk where
  text : List Char
  tags : List (Option Nat)
deriving DecidableEq

/-- The queue part of `append_string` on a non-empty queue: walk to the last
chunk; `available = BLOCK_SIZE - len(text_queue[-1])`; if
`len(string) < available` the string is concatenated onto the last chunk,
otherwise the whole string is appended as a fresh chunk (the source never
splits a string). -/
def appendChunk : List Chunk → Option Nat → List Char → List Chunk
  | [], p, s => [⟨s, [p]⟩]
  | [c], p, s =>
      if s.length < BLOCK_SIZE - c.text.length then
        [⟨c.text ++ s, c.tags ++ [p]⟩]
      else
        [c, ⟨s, [p]⟩]
  | c :: c' :: rest, p, s => c :: appendChunk (c' :: rest) p s

/-- The queue update of `append_string` (lines 403-425): if the queue is
empty an empty chunk is first appended (`text_queue.append("")`), then the
block logic of `appendChunk` runs. -/
def appendTextQueue (q : List Chunk) (p : Option Nat) (s : List Char) : List Chunk :=
  if q.isEmpty then appendChunk [⟨[], []⟩] p s else appendChunk q p s

/-- One `service_text_queue` drain step: `popleft` on a non-empty queue,
returning the delivered chunk and the remaining queue. -/
def serviceTextQueue : List Chunk → Option (Chunk × List Chunk)
  | [] => none
  | c :: rest => some (c, rest)

/-- Draining by repeated `service_text_queue` steps until the queue is
empty delivers the chunks front-to-back (FIFO). -/
def drainQueue : List Chunk → List Chunk
  | [] => []
  | c :: rest => c :: drainQueue rest

/-- Concatenation of the text of a list of chunks. -/
def joinTexts : List Chunk → List Char
  | [] => []
  | c :: rest => c.text ++ joinTexts rest

/-- Concatenation of a list of strings. -/
def joinStrs : List (List Char) → List Char
  | [] => []
  | s :: rest => s ++ joinStrs rest

/-- Feeding a whole sequence of `(producer, string)` requests through the
queue-update of `append_string`, starting from the empty queue. -/
def enqueueAll (items : List (Option Nat × List Char)) : List Chunk :=
  items.foldl (fun q it => appendTextQueue q it.1 it.2) []

/-- Boolean check that every chunk of a queue is within the block cap. -/
def chunksCapped (q : List Chunk) : Bool :=
  q.all (fun c => c.text.length ≤ BLOCK_SIZE)

/-! ## Orchestrator state machine (`TerminalExecCommand`)

State: the text queue, the registered owning producer `text_queue_proc`,
the ghost list of process handles that have received `kill()`, and the
chunks already delivered to the output view.  Events: the queue-clearing
prefix of `run` (lines 300-302), producer registration in `_start_process`,
an `append_string` callback, and one `service_text_queue` delivery step. -/

structure OrchState where
  text_queue : List Chunk
  text_queue_proc : Option Nat
  killedProcs : List Nat
  delivered : List Chunk
deriving DecidableEq

inductive OrchEvent where
  | startClear : OrchEvent
  | registerProc : Nat → OrchEvent
  | appendStr : Option Nat → List Char → OrchEvent
  | service : OrchEvent
deriving DecidableEq

/-- `proc.kill()` recorded as a ghost effect (the `None` producer has no
handle to kill). -/
def killProc (st : OrchState) : Option Nat → OrchState
  | some q => { st with killedProcs := q :: st.killedProcs }
  | none => st

/-- `append_string(proc, string)` (lines 403-425): under the queue lock, if
`proc != self.text_queue_proc and proc` then the stale producer is killed
and nothing is enqueued; otherwise the string is appended to the queue. -/
def appendString (st : OrchState) (p : Option Nat) (s : List Char) : OrchState :=
  if p ≠ st.text_queue_proc ∧ p.isSome then
    killProc st p
  else
    { st with text_queue := appendTextQueue st.text_queue p s }

def orchStep (st : OrchState) : OrchEvent → OrchState
  | .startClear => { st with text_queue := [], text_queue_proc := none }
  | .registerProc p => { st with text_queue_proc := some p }
  | .appendStr p s => appendString st p s
  | .service =>
      match serviceTextQueue st.text_queue with
      | none => st
      | some (c, rest) => { st with text_queue := rest, delivered := st.delivered ++ [c] }

def orchRun (st : OrchState) : List OrchEvent → OrchState
  | [] => st
  | e :: evs => orchRun (orchStep st e) evs

/-- The state right after a new run request `R2` has passed the
queue-clearing prefix of `run` and `_start_process` has registered its
fresh handle `r2` as the owning producer. -/
def startedState (st0 : OrchState) (r2 : Nat) : OrchState :=
  orchStep (orchStep st0 .startClear) (.registerProc r2)

/-! ## Queue lemmas -/

lemma appendChunk_join (q : List Chunk) (p : Option Nat) (s : List Char) :
    joinTexts (appendChunk q p s) = joinTexts q ++ s := by
  induction q with
  | nil => simp [appendChunk, joinTexts]
  | cons c rest ih =>
    cases rest with
    | nil =>
      by_cases h : s.length < BLOCK_SIZE - c.text.length <;>
        simp [appendChunk, joinTexts, h]
    | cons c' rest' =>
      simp only [appendChunk, joinTexts, ih, List.append_assoc]

lemma appendTextQueue_join (q : List Chunk) (p : Option Nat) (s : List Char) :
    joinTexts (appendTextQueue q p s) = joinTexts q ++ s := by
  unfold appendTextQueue
  by_cases h : q.isEmpty
  · have hq : q = [] := List.isEmpty_iff.mp h
    subst hq
    simp [appendChunk_join, joinTexts]
  · simp [h, appendChunk_join]

lemma appendChunk_mem_cases (q : List Chunk) (p : Option Nat) (s : List Char)
    (c : Chunk) (hc : c ∈ appendChunk q p s) :
    c ∈ q ∨ c.text = s ∨ c.text.length < BLOCK_SIZE := by
  induction q with
  | nil =>
    simp [appendChunk] at hc
    subst hc; simp
  | cons c0 rest ih =>
    cases rest with
    | nil =>
      by_cases h : s.length < BLOCK_SIZE - c0.text.length
      · simp [appendChunk, h] at hc
        subst hc
        right; right
        simp only [List.length_append]
        omega
      · simp [appendChunk, h] at hc
        rcases hc with hc | hc
        · left; simp [hc]
        · right; left; simp [hc]
    | cons c' rest' =>
      simp only [appendChunk, List.mem_cons] at hc
      rcases hc with hc | hc
      · left; simp [hc]
      · rcases ih hc with h | h | h
        · left; exact List.mem_cons_of_mem _ h
        · right; left; exact h
        · right; right; exact h

lemma appendTextQueue_mem_cases (q : List Chunk) (p : Option Nat) (s : List Char)
    (c : Chunk) (hc : c ∈ appendTextQueue q p s) :
    c ∈ q ∨ c.text = s ∨ c.text.length < BLOCK_SIZE := by
  unfold appendTextQueue at hc
  by_cases h : q.isEmpty
  · simp only [h, if_true] at hc
    rcases appendChunk_mem_cases _ _ _ _ hc with h' | h' | h'
    · simp at h'
      right; right
      rw [h']
      simp [BLOCK_SIZE]
    · right; left; exact h'
    · right; right; exact h'
  · simp only [h, if_false] at hc
    exact appendChunk_mem_cases _ _ _ _ hc

lemma enqueue_foldl_inv (items : List (Option Nat × List Char)) :
    ∀ (q : List Chunk),
      ∀ c ∈ items.foldl (fun q it => appendTextQueue q it.1 it.2) q,
        c ∈ q ∨ c.text.length < BLOCK_SIZE ∨ c.text ∈ items.map (·.2) := by
  induction items with
  | nil => intro q c hc; exact Or.inl hc
  | cons it items ih =>
    intro q c hc
    simp only [List.foldl_cons] at hc
    rcases ih _ c hc with h | h | h
    · rcases appendTextQueue_mem_cases _ _ _ _ h with h' | h' | h'
      · exact Or.inl h'
      · right; right; simp [h']
      · right; left; exact h'
    · right; left; exact h
    · right; right; simp [h]

lemma enqueueAll_join (items : List (Option Nat × List Char)) :
    joinTexts (enqueueAll items) = joinStrs (items.map (·.2)) := by
  suffices h : ∀ (q : List Chunk),
      joinTexts (items.foldl (fun q it => appendTextQueue q it.1 it.2) q)
        = joinTexts q ++ joinStrs (items.map (·.2)) by
    have := h []
    simpa [enqueueAll, joinTexts] using this
  induction items with
  | nil => intro q; simp [joinStrs]
  | cons it items ih =>
    intro q
    simp only [List.foldl_cons, ih, appendTextQueue_join, List.map_cons, joinStrs,
      List.append_assoc]

lemma drainQueue_eq (q : List Chunk) : drainQueue q = q := by
  induction q with
  | nil => rfl
  | cons c rest ih => simp [drainQueue, ih]

/-- C2 (amended): the queue never splits a string.  Every chunk produced by
a sequence of `append_string` queue updates is either strictly shorter than
`BLOCK_SIZE` (an empty chunk, or a chunk built by merging strings below the
cap) or is exactly one of the enqueued strings stored unsplit; and
concatenating the chunks drained by `service_text_queue` in FIFO order
reconstructs exactly the concatenation of the enqueued strings.
Consequently the `BLOCK_SIZE` cap holds for every chunk whenever each
individual enqueued string is within the cap, but an over-long enqueued
string becomes a single over-long chunk. -/
theorem c2_queue_blocks_amended (items : List (Option Nat × List Char)) :
    (∀ c ∈ enqueueAll items,
        c.text.length < BLOCK_SIZE ∨ c.text ∈ items.map (·.2))
    ∧ ((∀ s ∈ items.map (·.2), s.length ≤ BLOCK_SIZE) →
        ∀ c ∈ enqueueAll items, c.text.length ≤ BLOCK_SIZE)
    ∧ joinTexts (drainQueue (enqueueAll items)) = joinStrs (items.map (·.2)) := by
  refine ⟨?_, ?_, ?_⟩
  · intro c hc
    rcases enqueue_foldl_inv items [] c hc with h | h | h
    · simp at h
    · exact Or.inl h
    · exact Or.inr h
  · intro hlen c hc
    rcases enqueue_foldl_inv items [] c hc with h | h | h
    · simp at h
    · omega
    · exact hlen _ h
  · rw [drainQueue_eq, enqueueAll_join]

/-- Witness for `c2_queue_blocks_amended` at a concrete input: two small
strings merge into one chunk below the cap and drain back to their
concatenation. -/
theorem c2_queue_blocks_amended_witness :
    (∀ c ∈ enqueueAll [(some 5, ['a', 'b']), (some 5, ['c'])],
        c.text.length < BLOCK_SIZE ∨ c.text ∈ [['a', 'b'], ['c']])
    ∧ joinTexts (drainQueue (enqueueAll [(some 5, ['a', 'b']), (some 5, ['c'])]))
        = ['a', 'b', 'c'] := by
  have h := c2_queue_blocks_amended [(some 5, ['a', 'b']), (some 5, ['c'])]
  refine ⟨fun c hc => ?_, ?_⟩
  · simpa using h.1 c hc
  · have h3 := h.2.2
    simpa [joinStrs] using h3

/-- C2 (counterexample to the claim as stated): a single enqueued string of
length `BLOCK_SIZE + 1 = 16385` is not split — it is stored as one chunk
longer than the cap, so the cap check over the queue fails. -/
theorem c2_counterexample :
    chunksCapped (enqueueAll [(none, List.replicate (BLOCK_SIZE + 1) 'a')]) = false := by
  have hlen : (List.replicate (BLOCK_SIZE + 1) 'a').length = BLOCK_SIZE + 1 := by
    simp
  have hcond : ¬ ((List.replicate (BLOCK_SIZE + 1) 'a').length
      < BLOCK_SIZE - (([] : List Char)).length) := by
    rw [hlen]; simp
  simp only [enqueueAll, List.foldl_cons, List.foldl_nil, appendTextQueue,
    List.isEmpty_nil, if_true, appendChunk, hcond, if_false]
  simp [chunksCapped, hlen]

/-! ## Overlapping runs (C1) and the `None` producer (C10) -/

lemma appendChunk_tag_cases (q : List Chunk) (p : Option Nat) (s : List Char)
    (c : Chunk) (hc : c ∈ appendChunk q p s) (t : Option Nat) (ht : t ∈ c.tags) :
    t = p ∨ ∃ c' ∈ q, t ∈ c'.tags := by
  induction q with
  | nil =>
    simp [appendChunk] at hc
    subst hc
    simp at ht
    exact Or.inl ht
  | cons c0 rest ih =>
    cases rest with
    | nil =>
      by_cases h : s.length < BLOCK_SIZE - c0.text.length
      · simp [appendChunk, h] at hc
        subst hc
        simp at ht
        rcases ht with ht | ht
        · right; exact ⟨c0, by simp, ht⟩
        · left; exact ht
      · simp [appendChunk, h] at hc
        rcases hc with hc | hc
        · right; exact ⟨c0, by simp, by rw [hc] at ht; exact ht⟩
        · subst hc; simp at ht; left; exact ht
    | cons c' rest' =>
      simp only [appendChunk, List.mem_cons] at hc
      rcases hc with hc | hc
      · subst hc; right; exact ⟨c, by simp, ht⟩
      · rcases ih hc with h | ⟨c'', hc'', ht''⟩
        · exact Or.inl h
        · right; exact ⟨c'', List.mem_cons_of_mem _ hc'', ht''⟩

lemma appendTextQueue_tag_cases (q : List Chunk) (p : Option Nat) (s : List Char)
    (c : Chunk) (hc : c ∈ appendTextQueue q p s) (t : Option Nat) (ht : t ∈ c.tags) :
    t = p ∨ ∃ c' ∈ q, t ∈ c'.tags := by
  unfold appendTextQueue at hc
  by_cases h : q.isEmpty
  · simp only [h, if_true] at hc
    rcases appendChunk_tag_cases _ _ _ _ hc t ht with h' | ⟨c', hc', ht'⟩
    · exact Or.inl h'
    · simp at hc'
      rw [hc'] at ht'
      simp at ht'
  · simp only [h, if_false] at hc
    exact appendChunk_tag_cases _ _ _ _ hc t ht

/-- The invariant maintained after run `R2` supersedes run `R1`: `r1` is
not the registered producer, no queue chunk carries an `r1` contribution,
and every delivered chunk either predates the takeover or carries no `r1`
contribution. -/
def staleFreeInv (d0 : List Chunk) (r1 : Nat) (st : OrchState) : Prop :=
  st.text_queue_proc ≠ some r1
  ∧ (∀ c ∈ st.text_queue, some r1 ∉ c.tags)
  ∧ (∀ c ∈ st.delivered, c ∈ d0 ∨ some r1 ∉ c.tags)

lemma staleFreeInv_step (d0 : List Chunk) (r1 : Nat) (st : OrchState)
    (e : OrchEvent) (hinv : staleFreeInv d0 r1 st)
    (he : e ≠ .registerProc r1) :
    staleFreeInv d0 r1 (orchStep st e) := by
  obtain ⟨hproc, hqueue, hdel⟩ := hinv
  cases e with
  | startClear =>
    refine ⟨by simp [orchStep], by simp [orchStep], ?_⟩
    intro c hc
    exact hdel c hc
  | registerProc p =>
    have hp : p ≠ r1 := fun h => he (by rw [h])
    exact ⟨by simp [orchStep, hp], hqueue, hdel⟩
  | appendStr p s =>
    simp only [orchStep]
    unfold appendString
    split
    · cases p with
      | none => exact ⟨hproc, hqueue, hdel⟩
      | some q => exact ⟨hproc, hqueue, hdel⟩
    · next hcond =>
        refine ⟨hproc, ?_, hdel⟩
        intro c hc hmem
        have hp : p ≠ some r1 := by
          by_cases hps : p = some r1
          · subst hps
            exact absurd ⟨fun h => hproc h.symm, rfl⟩ hcond
          · exact hps
        rcases appendTextQueue_tag_cases _ _ _ _ hc (some r1) hmem with h | ⟨c', hc', ht'⟩
        · exact hp h.symm
        · exact hqueue c' hc' ht'
  | service =>
    simp only [orchStep]
    cases hqt : st.text_queue with
    | nil =>
      simp only [serviceTextQueue]
      exact ⟨hproc, hqueue, hdel⟩
    | cons c0 rest0 =>
      simp only [serviceTextQueue]
      rw [hqt] at hqueue
      refine ⟨hproc, ?_, ?_⟩
      · intro c' hc'
        exact hqueue c' (List.mem_cons_of_mem _ hc')
      · intro c' hc'
        simp only [List.mem_append, List.mem_singleton] at hc'
        rcases hc' with hc' | hc'
        · exact hdel c' hc'
        · subst hc'
          exact Or.inr (hqueue c' (by simp))

lemma staleFreeInv_run (d0 : List Chunk) (r1 : Nat) (st : OrchState)
    (evs : List OrchEvent) (hinv : staleFreeInv d0 r1 st)
    (hevs : ∀ e ∈ evs, e ≠ .registerProc r1) :
    staleFreeInv d0 r1 (orchRun st evs) := by
  induction evs generalizing st with
  | nil => exact hinv
  | cons e evs ih =>
    simp only [orchRun]
    exact ih _ (staleFreeInv_step d0 r1 st e hinv (hevs e (by simp)))
      (fun e' he' => hevs e' (List.mem_cons_of_mem _ he'))

lemma orchRun_append (st : OrchState) (evs : List OrchEvent) (e : OrchEvent) :
    orchRun st (evs ++ [e]) = orchStep (orchRun st evs) e := by
  induction evs generalizing st with
  | nil => rfl
  | cons e' evs ih =>
    simp only [List.cons_append, orchRun]
    exact ih _

/-- A stale `append_string` call (`proc` is a handle and is not the
registered producer): the handle is killed and the queue is untouched. -/
lemma appendString_stale (st : OrchState) (q : Nat) (s : List Char)
    (h : st.text_queue_proc ≠ some q) :
    appendString st (some q) s = { st with killedProcs := q :: st.killedProcs } := by
  unfold appendString
  split
  · rfl
  · next hcond => exact absurd ⟨fun h' => h h'.symm, rfl⟩ hcond

lemma startedState_inv (st0 : OrchState) (r1 r2 : Nat) (hne : r1 ≠ r2) :
    staleFreeInv st0.delivered r1 (startedState st0 r2) := by
  refine ⟨?_, ?_, ?_⟩
  · simp only [startedState, orchStep]
    intro h
    exact hne (Option.some.injEq _ _ ▸ h).symm
  · simp [startedState, orchStep]
  · intro c hc
    exact Or.inl hc

/-- C1: after run `R2` supersedes run `R1` (the `run` entry clears the text
queue and drops the owning producer, then `_start_process` registers `R2`'s
fresh handle), as long as `R1` is never re-registered: (a) the takeover
leaves an empty queue owned by `r2`; (b) every chunk ever delivered to the
output view afterwards either predates the takeover or contains no text
contributed by `R1`'s handle; and (c) any `append_string` callback from
`R1`'s stale handle, whenever it arrives, puts `r1` on the killed list and
leaves the text queue unchanged (killed instead of enqueued). -/
theorem c1_overlapping_runs_isolated (st0 : OrchState) (r1 r2 : Nat)
    (hne : r1 ≠ r2) (evs : List OrchEvent)
    (hreg : OrchEvent.registerProc r1 ∉ evs) :
    ((startedState st0 r2).text_queue = []
      ∧ (startedState st0 r2).text_queue_proc = some r2)
    ∧ (∀ c ∈ (orchRun (startedState st0 r2) evs).delivered,
        c ∈ st0.delivered ∨ some r1 ∉ c.tags)
    ∧ (∀ pre s suf, evs = pre ++ OrchEvent.appendStr (some r1) s :: suf →
        r1 ∈ (orchRun (startedState st0 r2)
                (pre ++ [OrchEvent.appendStr (some r1) s])).killedProcs
        ∧ (orchRun (startedState st0 r2)
            (pre ++ [OrchEvent.appendStr (some r1) s])).text_queue
          = (orchRun (startedState st0 r2) pre).text_queue) := by
  have hevs : ∀ e ∈ evs, e ≠ .registerProc r1 := by
    intro e he heq
    exact hreg (heq ▸ he)
  refine ⟨⟨by simp [startedState, orchStep], by simp [startedState, orchStep]⟩, ?_, ?_⟩
  · exact (staleFreeInv_run st0.delivered r1 _ evs
      (startedState_inv st0 r1 r2 hne) hevs).2.2
  · intro pre s suf hsplit
    have hpre : ∀ e ∈ pre, e ≠ .registerProc r1 := by
      intro e he
      exact hevs e (hsplit ▸ List.mem_append_left _ he)
    have hinv := staleFreeInv_run st0.delivered r1 _ pre
      (startedState_inv st0 r1 r2 hne) hpre
    rw [orchRun_append]
    simp only [orchStep]
    rw [appendString_stale _ _ _ hinv.1]
    exact ⟨by simp, rfl⟩

/-- Witness for `c1_overlapping_runs_isolated`: run 0 is superseded by run
1; the stale callback from handle 0 lands it on the killed list. -/
theorem c1_overlapping_runs_isolated_witness :
    0 ∈ (orchRun (startedState ⟨[], none, [], []⟩ 1)
          ([] ++ [OrchEvent.appendStr (some 0) ['x']])).killedProcs :=
  ((c1_overlapping_runs_isolated ⟨[], none, [], []⟩ 0 1 (by decide)
      [OrchEvent.appendStr (some 0) ['x']] (by decide)).2.2
    [] ['x'] [] rfl).1

/-- C10: `append_string` with the `None` producer bypasses the
stale-producer identity check entirely: whatever producer is registered
(including none at all), the string is enqueued and no handle is killed.
This is the path taken by the `"[Cancelled]"` marker and the
launch-failure diagnostics, which are therefore always delivered. -/
theorem c10_none_producer_bypasses_check (st : OrchState) (s : List Char) :
    orchStep st (.appendStr none s)
      = { st with text_queue := appendTextQueue st.text_queue none s }
    ∧ (orchStep st (.appendStr none s)).killedProcs = st.killedProcs := by
  constructor
  · simp [orchStep, appendString]
  · simp [orchStep, appendString]

/-! ## Newline normalization (`TerminalExecCommand.on_data`, C6)

`data.replace("\r\n", "\n").replace("\r", "\n")`: Python `str.replace`
scans left to right replacing non-overlapping occurrences. -/

/-- `data.replace("\r\n", "\n")`: scan left to right; a `\r` immediately
followed by `\n` becomes a single `\n` (both consumed), any other
character is copied. -/
def replaceCRLF : List Char → List Char
  | [] => []
  | [c] => [c]
  | c :: c' :: rest =>
      if c = '\r' ∧ c' = '\n' then '\n' :: replaceCRLF rest
      else c :: replaceCRLF (c' :: rest)

/-- `data.replace("\r", "\n")`: every `\r` becomes `\n`. -/
def replaceCR : List Char → List Char
  | [] => []
  | c :: rest => if c = '\r' then '\n' :: replaceCR rest else c :: replaceCR rest

/-- The newline normalization applied by `on_data` before enqueueing. -/
def normalizeNewlines (s : List Char) : List Char :=
  replaceCR (replaceCRLF s)

/-- `on_data(proc, data)`: normalize the line endings, then hand the result
to `append_string`. -/
def onData (st : OrchState) (p : Option Nat) (data : List Char) : OrchState :=
  appendString st p (normalizeNewlines data)

lemma replaceCR_no_cr (s : List Char) : '\r' ∉ replaceCR s := by
  induction s with
  | nil => simp [replaceCR]
  | cons c rest ih =>
    by_cases h : c = '\r'
    · intro hm
      rw [h] at hm
      simp only [replaceCR, if_pos rfl] at hm
      rcases List.mem_cons.mp hm with h' | h'
      · exact absurd h' (by decide)
      · exact ih h'
    · intro hm
      simp only [replaceCR, if_neg h] at hm
      rcases List.mem_cons.mp hm with h' | h'
      · exact h h'.symm
      · exact ih h'

lemma replaceCRLF_of_no_cr : ∀ s : List Char, '\r' ∉ s → replaceCRLF s = s
  | [], _ => rfl
  | [_], _ => rfl
  | c :: c' :: rest, h => by
      have hc : c ≠ '\r' := by
        intro hc; exact h (by simp [hc])
      have hrest : '\r' ∉ c' :: rest := by
        intro hm; exact h (List.mem_cons_of_mem _ hm)
      simp only [replaceCRLF]
      rw [if_neg (fun hand => hc hand.1),
        replaceCRLF_of_no_cr (c' :: rest) hrest]

lemma replaceCR_of_no_cr (s : List Char) (h : '\r' ∉ s) : replaceCR s = s := by
  induction s with
  | nil => rfl
  | cons c rest ih =>
    have hc : c ≠ '\r' := by
      intro hc; exact h (by simp [hc])
    have hrest : '\r' ∉ rest := by
      intro hm; exact h (List.mem_cons_of_mem _ hm)
    simp only [replaceCR]
    rw [if_neg hc, ih hrest]

/-- C6: the text handed to `append_string` by `on_data` never contains a
carriage return (so `\n` is the only line separator left: every `\r\n`
pair and every bare `\r` has been turned into `\n`), and an input
containing no `\r` at all is enqueued unchanged. -/
theorem c6_newline_normalization (data : List Char) :
    '\r' ∉ normalizeNewlines data
    ∧ ('\r' ∉ data → normalizeNewlines data = data)
    ∧ ∀ st p, onData st p data = appendString st p (normalizeNewlines data) := by
  refine ⟨replaceCR_no_cr _, fun h => ?_, fun st p => rfl⟩
  unfold normalizeNewlines
  rw [replaceCRLF_of_no_cr _ h, replaceCR_of_no_cr _ h]

/-- Witness for `c6_newline_normalization` on concrete inputs: a CRLF pair
and a bare CR both become LF, and a CR-free string passes unchanged. -/
theorem c6_newline_normalization_witness :
    '\r' ∉ normalizeNewlines ['a', '\r', '\n', 'b', '\r', 'c']
    ∧ normalizeNewlines ['a', '\r', '\n', 'b', '\r', 'c'] = ['a', '\n', 'b', '\n', 'c']
    ∧ normalizeNewlines ['h', 'i', '\n'] = ['h', 'i', '\n'] := by
  refine ⟨(c6_newline_normalization ['a', '\r', '\n', 'b', '\r', 'c']).1, by decide,
    (c6_newline_normalization ['h', 'i', '\n']).2.1 (by decide)⟩

/-! ## `AsyncTerminalProcess.kill` (C5)

`kill()` (terminal_exec.py lines 240-244): if not already killed, set the
flag, call `terminal.terminate()` (modelled as a ghost effect counter) and
drop the listener reference; `_process_output` (lines 249-255) forwards
`on_data`/`on_finished` only while `self.listener` is truthy. -/

structure AsyncProc where
  killed : Bool
  listener : Option Nat
  terminateCount : Nat
deriving DecidableEq

def AsyncProc.kill (p : AsyncProc) : AsyncProc :=
  if ¬ p.killed then
    { killed := true, listener := none, terminateCount := p.terminateCount + 1 }
  else
    p

/-- The guard `if self.listener:` in `_process_output` that decides whether
`on_data` / `on_finished` are forwarded. -/
def AsyncProc.forwardsCallbacks (p : AsyncProc) : Bool :=
  p.listener.isSome

/-- C5: on a not-yet-killed handle, the first `kill()` performs exactly one
terminate side effect and detaches the listener (so no further `on_data` or
`on_finished` callback is forwarded), and a second `kill()` is a no-op
(hence after two calls the terminate effect still happened exactly once,
and no exception path exists — `kill` is a total function). -/
theorem c5_kill_idempotent (p : AsyncProc) (h : p.killed = false) :
    (p.kill).terminateCount = p.terminateCount + 1
    ∧ (p.kill).listener = none
    ∧ (p.kill).forwardsCallbacks = false
    ∧ p.kill.kill = p.kill
    ∧ (p.kill.kill).terminateCount = p.terminateCount + 1 := by
  have h1 : p.kill = (⟨true, none, p.terminateCount + 1⟩ : AsyncProc) := by
    unfold AsyncProc.kill
    rw [h]
    simp
  have h2 : p.kill.kill = p.kill := by
    rw [h1]
    unfold AsyncProc.kill
    simp
  refine ⟨by rw [h1], by rw [h1], by rw [h1]; rfl, h2, by rw [h2, h1]⟩

/-- Witness for `c5_kill_idempotent` at a concrete live handle. -/
theorem c5_kill_idempotent_witness :
    ((⟨false, some 7, 0⟩ : AsyncProc).kill).terminateCount = 1
    ∧ (⟨false, some 7, 0⟩ : AsyncProc).kill.kill = (⟨false, some 7, 0⟩ : AsyncProc).kill := by
  have h := c5_kill_idempotent ⟨false, some 7, 0⟩ rfl
  exact ⟨h.1, h.2.2.2.1⟩

/-! ## Exit policy (`Terminal.run`, C4)

`terminal_exec.py` lines 98-105 (Windows: `"{cmd} & {exit}"`) and 126-133
(POSIX: `"{cmd}; {exit}"`), with the POSIX line further wrapped as
`xterm -e "{cmd}; read"` (line 146). -/

inductive ExitMethod where
  | prompt : ExitMethod
  | manual : ExitMethod
  | auto : ExitMethod
deriving DecidableEq

/-- The Windows exit-suffix dictionary of `Terminal.run`. -/
def windowsExitSuffix : ExitMethod → String
  | .prompt => "pause && exit"
  | .manual => "waitfor exit"
  | .auto => "exit"

/-- The POSIX exit-suffix dictionary of `Terminal.run`. -/
def posixExitSuffix : ExitMethod → String
  | .prompt => "echo && echo Press ENTER to continue && read && exit"
  | .manual => "sleep infinity"
  | .auto => "exit"

/-- `cmd = "{cmd} & {exit}"` (Windows). -/
def windowsCmdWithExit (cmd : String) (m : ExitMethod) : String :=
  cmd ++ " & " ++ windowsExitSuffix m

/-- `cmd = "{cmd}; {exit}"` (POSIX). -/
def posixCmdWithExit (cmd : String) (m : ExitMethod) : String :=
  cmd ++ "; " ++ posixExitSuffix m

/-- `"{term} -e \"{cmd}; read\""` (POSIX, line 146). -/
def posixXtermArg (term cmd : String) (m : ExitMethod) : String :=
  term ++ " -e \"" ++ posixCmdWithExit cmd m ++ "; read\""

/-- Abstract syntax of the shell command fragments occurring in the exit
suffixes (and the user command), with `&&` and `;` sequencing. -/
inductive ShCmd where
  | pause : ShCmd
  | waitforSig : String → ShCmd
  | readLine : ShCmd
  | echoCmd : String → ShCmd
  | sleepInf : ShCmd
  | exitCmd : ShCmd
  | andSeq : ShCmd → ShCmd → ShCmd
  | seq : ShCmd → ShCmd → ShCmd
deriving DecidableEq

/-- Rendering of shell fragments back to command-line text, tying the
abstract suffixes to the literal strings in the source. -/
def ShCmd.render : ShCmd → String
  | .pause => "pause"
  | .waitforSig n => "waitfor " ++ n
  | .readLine => "read"
  | .echoCmd m => if m = "" then "echo" else "echo " ++ m
  | .sleepInf => "sleep infinity"
  | .exitCmd => "exit"
  | .andSeq a b => a.render ++ " && " ++ b.render
  | .seq a b => a.render ++ "; " ++ b.render

/-- Outcome of running a shell fragment: the shell either reaches the end
of the fragment (`done exited` records whether an explicit `exit`
terminated the shell on the way) or hangs forever. -/
inductive ExecOut where
  | done : Bool → ExecOut
  | hang : ExecOut
deriving DecidableEq

/-- Modelled from the spec: the operating-system semantics of the shell
primitives used in the exit suffixes (not part of the repository).
`pause` and `read` complete only when the user acknowledges; `waitfor
exit` waits for a signal nobody sends and `sleep infinity` sleeps forever;
`echo` completes immediately; `exit` terminates the shell, skipping the
rest of the command line in both `&&` and `;` sequencing. -/
def ShCmd.outcome (user : Bool) : ShCmd → ExecOut
  | .pause => if user then .done false else .hang
  | .waitforSig _ => .hang
  | .readLine => if user then .done false else .hang
  | .echoCmd _ => .done false
  | .sleepInf => .hang
  | .exitCmd => .done true
  | .andSeq a b =>
      match a.outcome user with
      | .hang => .hang
      | .done true => .done true
      | .done false => b.outcome user
  | .seq a b =>
      match a.outcome user with
      | .hang => .hang
      | .done true => .done true
      | .done false => b.outcome user

/-- Windows exit suffixes as shell fragments. -/
def windowsExitAst : ExitMethod → ShCmd
  | .prompt => .andSeq .pause .exitCmd
  | .manual => .waitforSig "exit"
  | .auto => .exitCmd

/-- POSIX exit suffixes as shell fragments. -/
def posixExitAst : ExitMethod → ShCmd
  | .prompt => .andSeq (.echoCmd "")
      (.andSeq (.echoCmd "Press ENTER to continue") (.andSeq .readLine .exitCmd))
  | .manual => .sleepInf
  | .auto => .exitCmd

/-- Windows: `start /wait cmd /k "{cmd} & {exit}"` — with `cmd /k` the
console stays open after the command line, so the terminal window closes
exactly when an explicit `exit` runs. -/
def windowsSessionCloses (c : ShCmd) (m : ExitMethod) (user : Bool) : Bool :=
  match (ShCmd.seq c (windowsExitAst m)).outcome user with
  | .done true => true
  | _ => false

/-- POSIX: `xterm -e "{cmd}; {exit}; read"` — xterm closes when the
command line it runs finishes (by reaching the end or by `exit`). -/
def posixSessionCloses (c : ShCmd) (m : ExitMethod) (user : Bool) : Bool :=
  match (ShCmd.seq (ShCmd.seq c (posixExitAst m)) .readLine).outcome user with
  | .done _ => true
  | .hang => false

/-- C4: every composed command line appends the exit-policy suffix for
its platform (the rendered fragment is letter-for-letter the literal of
the source), and for any user command that runs to completion the
resulting terminal session closes exactly per policy: `prompt` closes iff
the user acknowledges, `manual` never closes on its own, `auto` closes
immediately, on both the Windows and POSIX compositions. -/
theorem c4_exit_policy_suffix (cmd : String) (m : ExitMethod) (c : ShCmd)
    (user : Bool) (hc : c.outcome user = .done false) :
    windowsCmdWithExit cmd m = cmd ++ " & " ++ (windowsExitAst m).render
    ∧ posixCmdWithExit cmd m = cmd ++ "; " ++ (posixExitAst m).render
    ∧ posixXtermArg "xterm" cmd m
        = "xterm -e \"" ++ cmd ++ "; " ++ (posixExitAst m).render ++ "; read\""
    ∧ windowsSessionCloses c m user
        = (match m with | .prompt => user | .manual => false | .auto => true)
    ∧ posixSessionCloses c m user
        = (match m with | .prompt => user | .manual => false | .auto => true) := by
  refine ⟨?_, ?_, ?_, ?_, ?_⟩
  · cases m <;> rfl
  · cases m <;> rfl
  · cases m <;> simp [posixXtermArg, posixCmdWithExit, posixExitSuffix, posixExitAst,
      ShCmd.render, String.append_assoc]
  · cases m <;> cases user <;>
      simp [windowsSessionCloses, windowsExitAst, ShCmd.outcome, hc]
  · cases m <;> cases user <;>
      simp [posixSessionCloses, posixExitAst, ShCmd.outcome, hc]

/-- Witness for `c4_exit_policy_suffix`: a concrete completed user command
under the `prompt` policy with the user acknowledging. -/
theorem c4_exit_policy_suffix_witness :
    windowsSessionCloses (.echoCmd "build done") .prompt true = true
    ∧ posixSessionCloses (.echoCmd "build done") .prompt true = true :=
  ⟨((c4_exit_policy_suffix "make" .prompt (.echoCmd "build done") true rfl).2.2.2.1),
   ((c4_exit_policy_suffix "make" .prompt (.echoCmd "build done") true rfl).2.2.2.2)⟩

/-! ## Request validation (`TerminalExecCommand.run`, C7)

`terminal_exec.py` lines 270-316 and `_start_process` lines 395-409,
with Python truthiness: `None`, `""` and `[]` are falsy. -/

/-- The Python value passed as `shell_cmd`: a string, or a value of some
other type (with its own truthiness). -/
inductive PyShellCmd where
  | str : String → PyShellCmd
  | nonStr : Bool → PyShellCmd
deriving DecidableEq

/-- Python truthiness of the `shell_cmd` argument. -/
def shellCmdTruthy : Option PyShellCmd → Bool
  | none => false
  | some (.str s) => !s.isEmpty
  | some (.nonStr t) => t

/-- `isinstance(shell_cmd, str)`. -/
def shellCmdIsStr : Option PyShellCmd → Bool
  | some (.str _) => true
  | _ => false

/-- Python truthiness of the `cmd` argument (an argv list or `None`). -/
def cmdTruthy : Option (List String) → Bool
  | none => false
  | some l => !l.isEmpty

inductive RunOutcome where
  | phantomsUpdate : RunOutcome
  | phantomsHide : RunOutcome
  | killHandled : Bool → RunOutcome
  | valueError : String → RunOutcome
  | launched : RunOutcome
  | launchFailed : RunOutcome
deriving DecidableEq

/-- The observable effects of one `run` invocation: how it ended, whether
an `AsyncTerminalProcess` construction (process spawn) was attempted, and
the strings pushed into the results panel via `append_string` on this
path. -/
structure RunEffects where
  outcome : RunOutcome
  spawnAttempted : Bool
  panelTexts : List String
deriving DecidableEq

structure RunArgs where
  cmd : Option (List String)
  shell_cmd : Option PyShellCmd
  kill : Bool
  update_phantoms_only : Bool
  hide_phantoms_only : Bool
  quiet : Bool
  hadProc : Bool
  launchRaises : Option String
  debugText : String
deriving DecidableEq

/-- The control flow of `run`: the phantom shortcuts; queue clearing (in
the orchestrator model); the `kill` branch; then the two `ValueError`
guards, raised before any process is spawned; finally `_start_process`,
whose `try/except` renders a construction failure into the panel as the
exception text, the debug text and (unless quiet) a `"[Finished]"`
marker. -/
def runEntry (a : RunArgs) : RunEffects :=
  if a.update_phantoms_only then ⟨.phantomsUpdate, false, []⟩
  else if a.hide_phantoms_only then ⟨.phantomsHide, false, []⟩
  else if a.kill then
    if a.hadProc then ⟨.killHandled true, false, ["[Cancelled]"]⟩
    else ⟨.killHandled false, false, []⟩
  else if shellCmdTruthy a.shell_cmd = false ∧ cmdTruthy a.cmd = false then
    ⟨.valueError "shell_cmd or cmd is required", false, []⟩
  else if shellCmdTruthy a.shell_cmd = true ∧ shellCmdIsStr a.shell_cmd = false then
    ⟨.valueError "shell_cmd must be a string", false, []⟩
  else
    match a.launchRaises with
    | none => ⟨.launched, true, []⟩
    | some e =>
        ⟨.launchFailed, true,
          [e ++ "\n", a.debugText ++ "\n"] ++ if a.quiet then [] else ["[Finished]"]⟩

/-- C7 (amended): a request with neither a (truthy) `cmd` nor a (truthy)
`shell_cmd`, or with a truthy non-string `shell_cmd`, is rejected
synchronously by raising `ValueError` before any process spawn is
attempted — but nothing is written to the results panel on that path (the
exception propagates to the host command dispatcher).  By contrast a
launch-time failure is the path that is surfaced as text in the results
panel. -/
theorem c7_invalid_request_amended (a : RunArgs)
    (hupd : a.update_phantoms_only = false) (hhide : a.hide_phantoms_only = false)
    (hkill : a.kill = false) :
    (shellCmdTruthy a.shell_cmd = false → cmdTruthy a.cmd = false →
      runEntry a = ⟨.valueError "shell_cmd or cmd is required", false, []⟩)
    ∧ (shellCmdTruthy a.shell_cmd = true → shellCmdIsStr a.shell_cmd = false →
      runEntry a = ⟨.valueError "shell_cmd must be a string", false, []⟩)
    ∧ (∀ e, cmdTruthy a.cmd = true → shellCmdTruthy a.shell_cmd = false →
      a.launchRaises = some e →
      (runEntry a).spawnAttempted = true ∧ (runEntry a).panelTexts ≠ []) := by
  refine ⟨fun h1 h2 => ?_, fun h1 h2 => ?_, fun e h1 h2 h3 => ?_⟩
  · simp [runEntry, hupd, hhide, hkill, h1, h2]
  · simp [runEntry, hupd, hhide, hkill, h1, h2]
  · have hval : ¬ (shellCmdTruthy a.shell_cmd = false ∧ cmdTruthy a.cmd = false) := by
      simp [h1]
    have hval2 : ¬ (shellCmdTruthy a.shell_cmd = true
        ∧ shellCmdIsStr a.shell_cmd = false) := by
      simp [h2]
    simp only [runEntry, hupd, hhide, hkill, if_false, hval, hval2, h3]
    constructor
    · rfl
    · simp

/-- C7 (counterexample to the claim as stated): with neither `cmd` nor
`shell_cmd`, the request is rejected before any spawn, but the rejection
is a raised `ValueError` and the results panel receives no text at all —
it is not "surfaced as text in the results panel". -/
theorem c7_counterexample :
    runEntry ⟨none, none, false, false, false, false, false, none, ""⟩
      = ⟨.valueError "shell_cmd or cmd is required", false, []⟩ := by
  rfl

/-- Witness for `c7_invalid_request_amended` at concrete arguments. -/
theorem c7_invalid_request_amended_witness :
    runEntry ⟨none, some (.nonStr true), false, false, false, false, false, none, ""⟩
      = ⟨.valueError "shell_cmd must be a string", false, []⟩ :=
  (c7_invalid_request_amended
      ⟨none, some (.nonStr true), false, false, false, false, false, none, ""⟩
      rfl rfl rfl).2.1 rfl rfl

/-! ## Environment resolution (`Terminal.__init__`, C3)

Python dicts embedded as insertion-ordered association lists, and
`os.path.expandvars` (posixpath: the regex `\$(\w+|\x7b[^\x7d]*\x7d)`
under `re.ASCII`, substituting from `os.environ`, leaving unknown
references verbatim and never rescanning substituted values). -/

def lbrace : Char := '\x7b'

def rbrace : Char := '\x7d'

/-- `d[k]` (first match; keys are unique in a real dict). -/
def dictGet : List (String × String) → String → Option String
  | [], _ => none
  | (k', v) :: rest, k => if k' = k then some v else dictGet rest k

/-- `d[k] = v`: overwrite in place if the key exists, else append. -/
def dictSet : List (String × String) → String → String → List (String × String)
  | [], k, v => [(k, v)]
  | (k', v') :: rest, k, v =>
      if k' = k then (k', v) :: rest else (k', v') :: dictSet rest k v

/-- `d.update(ov)`: apply every binding of `ov` in order. -/
def dictUpdate (d ov : List (String × String)) : List (String × String) :=
  ov.foldl (fun acc kv => dictSet acc kv.1 kv.2) d

/-- The last binding of a key in an update list (the one that wins). -/
def lastOcc : List (String × String) → String → Option String
  | [], _ => none
  | (k', v) :: rest, k =>
      match lastOcc rest k with
      | some w => some w
      | none => if k' = k then some v else none

/-- ASCII word character (`\w` under `re.ASCII`). -/
def isWordChar (c : Char) : Bool :=
  c.isAlpha || c.isDigit || c = '_'

/-- Longest prefix of word characters and the rest (`\w+`). -/
def takeWord : List Char → List Char × List Char
  | [] => ([], [])
  | c :: rest =>
      if isWordChar c then
        (c :: (takeWord rest).1, (takeWord rest).2)
      else ([], c :: rest)

/-- Scan to the first closing brace (`[^\x7d]*\x7d`): the name and the
remainder after the brace, or `none` if no closing brace exists. -/
def takeBraced : List Char → Option (List Char × List Char)
  | [] => none
  | c :: rest =>
      if c = rbrace then some ([], rest)
      else (takeBraced rest).map (fun p => (c :: p.1, p.2))

lemma takeWord_length (l : List Char) :
    (takeWord l).1.length + (takeWord l).2.length = l.length := by
  induction l with
  | nil => simp [takeWord]
  | cons c rest ih =>
    by_cases h : isWordChar c
    · simp only [takeWord, h, if_true, List.length_cons]
      omega
    · simp [takeWord, h]

lemma takeBraced_length : ∀ {l n r : List Char},
    takeBraced l = some (n, r) → n.length + 1 + r.length = l.length := by
  intro l
  induction l with
  | nil => intro n r h; simp [takeBraced] at h
  | cons c rest ih =>
    intro n r h
    by_cases hc : c = rbrace
    · rw [takeBraced, if_pos hc] at h
      obtain ⟨h1, h2⟩ := Prod.mk.injEq .. ▸ Option.some.inj h
      subst h1; subst h2
      simp only [List.length_nil, List.length_cons]
      omega
    · rw [takeBraced, if_neg hc] at h
      rcases Option.map_eq_some'.mp h with ⟨⟨n', r'⟩, hnr, heq⟩
      obtain ⟨h1, h2⟩ := Prod.mk.injEq .. ▸ heq
      subst h1; subst h2
      have := ih hnr
      simp only [List.length_cons]
      omega

lemma takeWord_snd_length {l w r : List Char} (h : takeWord l = (w, r)) :
    w.length + r.length = l.length := by
  have hl := takeWord_length l
  rw [h] at hl
  simpa using hl

/-- `os.path.expandvars` (posixpath) over the environment `env`: scan for
`$`; a `$` followed by a braced name or a word is looked up in `env` —
on success the value is substituted and never rescanned, on failure the
reference is left verbatim; any other `$` is copied; scanning continues
after the token. -/
def expandVars (env : List (String × String)) : List Char → List Char
  | [] => []
  | c :: rest =>
      if c = '$' then
        match rest with
        | [] => ['$']
        | c2 :: rest2 =>
          if c2 = lbrace then
            match hb : takeBraced rest2 with
            | some (name, rest3) =>
                (match dictGet env (String.mk name) with
                 | some v => v.data ++ expandVars env rest3
                 | none => '$' :: lbrace :: (name ++ rbrace :: expandVars env rest3))
            | none => '$' :: expandVars env (c2 :: rest2)
          else if isWordChar c2 then
            match hw : takeWord (c2 :: rest2) with
            | (w, r) =>
                (match dictGet env (String.mk w) with
                 | some v => v.data ++ expandVars env r
                 | none => '$' :: (w ++ expandVars env r))
          else '$' :: expandVars env (c2 :: rest2)
      else c :: expandVars env rest
termination_by l => l.length
decreasing_by
  all_goals simp_wf
  all_goals first
    | (have hlen := takeBraced_length hb
       omega)
    | (have hlen := takeWord_snd_length hw
       simp only [List.length_cons] at hlen
       omega)
    | omega

lemma expandVars_nil (env : List (String × String)) : expandVars env [] = [] := by
  simp [expandVars]

lemma expandVars_cons_ne (env : List (String × String)) (c : Char) (rest : List Char)
    (h : c ≠ '$') : expandVars env (c :: rest) = c :: expandVars env rest := by
  rw [expandVars.eq_def]
  simp only [if_neg h]

lemma expandVars_no_dollar (env : List (String × String)) :
    ∀ s : List Char, '$' ∉ s → expandVars env s = s
  | [], _ => expandVars_nil env
  | c :: rest, h => by
      have hc : c ≠ '$' := fun hc => h (by simp [hc])
      rw [expandVars_cons_ne env c rest hc,
        expandVars_no_dollar env rest (fun hm => h (List.mem_cons_of_mem _ hm))]

lemma takeBraced_append (n rest : List Char) (h : rbrace ∉ n) :
    takeBraced (n ++ rbrace :: rest) = some (n, rest) := by
  induction n with
  | nil => simp [takeBraced]
  | cons c n' ih =>
    have hc : c ≠ rbrace := fun hc => h (by simp [hc])
    have hn' : rbrace ∉ n' := fun hm => h (List.mem_cons_of_mem _ hm)
    simp only [List.cons_append, takeBraced, if_neg hc]
    simpa using congrArg (Option.map fun p => (c :: p.1, p.2)) (ih hn')

lemma expandVars_braced (env : List (String × String)) (n rest : List Char)
    (h : rbrace ∉ n) :
    expandVars env ('$' :: lbrace :: (n ++ rbrace :: rest))
      = (match dictGet env (String.mk n) with
         | some v => v.data ++ expandVars env rest
         | none => '$' :: lbrace :: (n ++ rbrace :: expandVars env rest)) := by
  have htb := takeBraced_append n rest h
  rw [expandVars.eq_def]
  simp only [reduceIte]
  split
  · next name rest3 heq =>
      rw [htb] at heq
      obtain ⟨h1, h2⟩ := Prod.mk.injEq .. ▸ Option.some.inj heq
      subst h1; subst h2
      rfl
  · next heq =>
      rw [htb] at heq
      exact absurd heq (by simp)

/-- Known braced reference: substituted from `env`, never rescanned. -/
lemma expandVars_braced_known (env : List (String × String)) (n rest : List Char)
    (v : String) (h : rbrace ∉ n) (hv : dictGet env (String.mk n) = some v) :
    expandVars env ('$' :: lbrace :: (n ++ rbrace :: rest))
      = v.data ++ expandVars env rest := by
  rw [expandVars_braced env n rest h, hv]

/-- Unknown braced reference: left verbatim, scanning continues after it. -/
lemma expandVars_braced_unknown (env : List (String × String)) (n rest : List Char)
    (h : rbrace ∉ n) (hv : dictGet env (String.mk n) = none) :
    expandVars env ('$' :: lbrace :: (n ++ rbrace :: rest))
      = '$' :: lbrace :: (n ++ rbrace :: expandVars env rest) := by
  rw [expandVars_braced env n rest h, hv]

lemma dictGet_map_expand (env d : List (String × String)) (k : String) :
    dictGet (d.map (fun kv => (kv.1, String.mk (expandVars env kv.2.data)))) k
      = (dictGet d k).map (fun v => String.mk (expandVars env v.data)) := by
  induction d with
  | nil => rfl
  | cons kv rest ih =>
    by_cases h : kv.1 = k <;> simp [dictGet, h, ih]

lemma dictGet_dictSet (d : List (String × String)) (k v k' : String) :
    dictGet (dictSet d k v) k' = if k = k' then some v else dictGet d k' := by
  induction d with
  | nil =>
    by_cases h : k = k' <;> simp [dictSet, dictGet, h]
  | cons kv rest ih =>
    obtain ⟨k0, v0⟩ := kv
    by_cases h1 : k0 = k
    · subst h1
      by_cases h2 : k0 = k' <;> simp [dictSet, dictGet, h2]
    · by_cases h2 : k0 = k'
      · subst h2
        have : ¬ k = k0 := fun h => h1 h.symm
        simp [dictSet, dictGet, h1, this]
      · simp [dictSet, dictGet, h1, h2, ih]

lemma dictGet_dictUpdate (d ov : List (String × String)) (k : String) :
    dictGet (dictUpdate d ov) k
      = match lastOcc ov k with
        | some v => some v
        | none => dictGet d k := by
  induction ov generalizing d with
  | nil => rfl
  | cons kv rest ih =>
    obtain ⟨k0, v0⟩ := kv
    have hstep : dictUpdate d ((k0, v0) :: rest) = dictUpdate (dictSet d k0 v0) rest := rfl
    rw [hstep, ih (dictSet d k0 v0)]
    simp only [lastOcc]
    cases hl : lastOcc rest k with
    | some w => rfl
    | none =>
      rw [dictGet_dictSet]
      by_cases h : k0 = k <;> simp [h]

/-- `Terminal.__init__` (terminal_exec.py lines 51-56): copy `os.environ`,
`update` it with the per-run overrides, then replace every value by
`os.path.expandvars(value)` — which reads the live `os.environ`, i.e. the
*base* map `environ`, not the merged copy. -/
def terminalInitEnv (environ overrides : List (String × String)) : List (String × String) :=
  (dictUpdate environ overrides).map
    (fun kv => (kv.1, String.mk (expandVars environ kv.2.data)))

/-- The resolver as the spec words it (for refinement comparison only):
the same merge, but with variable references expanded using the merged
map itself as the substitution source. -/
def specResolveEnv (environ overrides : List (String × String)) : List (String × String) :=
  (dictUpdate environ overrides).map
    (fun kv => (kv.1, String.mk (expandVars (dictUpdate environ overrides) kv.2.data)))

/-- C3 (amended): the resolver equals the merged map (base updated by
overrides, overrides winning on collisions — the last binding of a key in
the override list is the one looked up) with every value expanded by
`os.path.expandvars` using the *base* environment as the substitution
source (not the merged map: an override value referencing another override
is expanded only if the referenced name also exists in the base).  Values
without `$` pass through unchanged, a known `$\x7bVAR\x7d` reference is
replaced by the base value (never rescanned), and an unknown reference is
left verbatim. -/
theorem c3_env_resolver_amended (b o : List (String × String)) :
    (∀ k, dictGet (terminalInitEnv b o) k
        = (dictGet (dictUpdate b o) k).map (fun v => String.mk (expandVars b v.data)))
    ∧ (∀ k v, lastOcc o k = some v →
        dictGet (terminalInitEnv b o) k = some (String.mk (expandVars b v.data)))
    ∧ (∀ k, lastOcc o k = none →
        dictGet (terminalInitEnv b o) k
          = (dictGet b k).map (fun v => String.mk (expandVars b v.data)))
    ∧ (∀ s : List Char, '$' ∉ s → expandVars b s = s)
    ∧ (∀ n rest, rbrace ∉ n → dictGet b (String.mk n) = none →
        expandVars b ('$' :: lbrace :: (n ++ rbrace :: rest))
          = '$' :: lbrace :: (n ++ rbrace :: expandVars b rest))
    ∧ (∀ n v rest, rbrace ∉ n → dictGet b (String.mk n) = some v →
        expandVars b ('$' :: lbrace :: (n ++ rbrace :: rest))
          = v.data ++ expandVars b rest) := by
  have hmap : ∀ k, dictGet (terminalInitEnv b o) k
      = (dictGet (dictUpdate b o) k).map (fun v => String.mk (expandVars b v.data)) :=
    fun k => dictGet_map_expand b (dictUpdate b o) k
  refine ⟨hmap, fun k v hv => ?_, fun k hk => ?_,
    fun s hs => expandVars_no_dollar b s hs,
    fun n rest hn hv => expandVars_braced_unknown b n rest hn hv,
    fun n v rest hn hv => expandVars_braced_known b n rest v hn hv⟩
  · rw [hmap k, dictGet_dictUpdate, hv]
    rfl
  · rw [hmap k, dictGet_dictUpdate, hk]

/-- C3 (counterexample to the claim as stated): with base
`\x7b"HOME": "/root"\x7d` and overrides `X=hello`, `Y=$\x7bX\x7d`, the
code leaves `Y` as the verbatim reference (the substitution source is the
base `os.environ`, which has no `X`), while the spec's
merged-map-as-source resolver would produce `hello` — the two resolvers
differ. -/
theorem c3_counterexample :
    dictGet (terminalInitEnv [("HOME", "/root")]
        [("X", "hello"), ("Y", "$\x7bX\x7d")]) "Y" = some "$\x7bX\x7d"
    ∧ dictGet (specResolveEnv [("HOME", "/root")]
        [("X", "hello"), ("Y", "$\x7bX\x7d")]) "Y" = some "hello"
    ∧ terminalInitEnv [("HOME", "/root")] [("X", "hello"), ("Y", "$\x7bX\x7d")]
      ≠ specResolveEnv [("HOME", "/root")] [("X", "hello"), ("Y", "$\x7bX\x7d")] := by
  have hdata : ("$\x7bX\x7d" : String).data
      = '$' :: lbrace :: (['X'] ++ rbrace :: []) := rfl
  have hup : dictGet (dictUpdate [("HOME", "/root")]
      [("X", "hello"), ("Y", "$\x7bX\x7d")]) "Y" = some "$\x7bX\x7d" := by decide
  have h1 : dictGet (terminalInitEnv [("HOME", "/root")]
      [("X", "hello"), ("Y", "$\x7bX\x7d")]) "Y" = some "$\x7bX\x7d" := by
    rw [terminalInitEnv, dictGet_map_expand, hup, Option.map_some', hdata,
      expandVars_braced_unknown _ _ _ (by decide) (by decide), expandVars_nil]
    rfl
  have h2 : dictGet (specResolveEnv [("HOME", "/root")]
      [("X", "hello"), ("Y", "$\x7bX\x7d")]) "Y" = some "hello" := by
    rw [specResolveEnv, dictGet_map_expand, hup, Option.map_some', hdata,
      expandVars_braced_known _ _ _ "hello" (by decide) (by decide), expandVars_nil]
    rfl
  refine ⟨h1, h2, fun heq => ?_⟩
  rw [heq, h2] at h1
  exact absurd (Option.some.inj h1) (by decide)

/-- Witness for `c3_env_resolver_amended`: a concrete override wins and is
expanded against the base map. -/
theorem c3_env_resolver_amended_witness :
    dictGet (terminalInitEnv [("PATH", "/usr/bin")] [("X", "hi")]) "X"
      = some (String.mk (expandVars [("PATH", "/usr/bin")] ("hi" : String).data)) :=
  (c3_env_resolver_amended [("PATH", "/usr/bin")] [("X", "hi")]).2.1 "X" "hi" (by decide)

/-! ## Temporary PATH mutation (`AsyncTerminalProcess.__init__`, C8) -/

/-- The outcome of one `AsyncTerminalProcess.__init__` call, projected
onto its interaction with the process-wide environment: the final
`os.environ`, the `PATH` visible when the terminal process is spawned
(`none` if the spawn was never reached), and whether the constructor
completed normally (no exception escaped). -/
structure AsyncInitOutcome where
  environ : List (String × String)
  spawnPath : Option String
  completed : Bool
deriving DecidableEq

/-- `AsyncTerminalProcess.__init__` (terminal_exec.py lines 213-238),
restricted to its `PATH` effect: if `path` is truthy, read
`os.environ["PATH"]` (a `KeyError` if absent), overwrite it with
`os.path.expandvars(path)`, run the `Terminal` (which may raise, e.g. on
spawn failure — `launchRaises`), and only after a *normal* launch assign
the saved value back.  There is no `try/finally`: when the launch raises,
the restore line is never reached. -/
def asyncInitPathEffect (environ : List (String × String)) (path : String)
    (launchRaises : Bool) : AsyncInitOutcome :=
  if path = "" then
    ⟨environ, if launchRaises then none else dictGet environ "PATH", !launchRaises⟩
  else
    match dictGet environ "PATH" with
    | none => ⟨environ, none, false⟩
    | some old =>
      let env1 := dictSet environ "PATH" (String.mk (expandVars environ path.data))
      if launchRaises then ⟨env1, none, false⟩
      else ⟨dictSet env1 "PATH" old, dictGet env1 "PATH", true⟩

/-- C8 (amended): with a non-empty `path`, `PATH` is overwritten with the
expanded value, that value is the one visible to the spawn, and on a
*normal* return `PATH` is restored to its prior value — but when the
launch raises, the restore is skipped and `os.environ["PATH"]` keeps the
temporary value after the constructor exits. -/
theorem c8_path_restore_amended (environ : List (String × String)) (path old : String)
    (hpath : path ≠ "") (hold : dictGet environ "PATH" = some old) :
    ((asyncInitPathEffect environ path false).completed = true
      ∧ dictGet (asyncInitPathEffect environ path false).environ "PATH" = some old
      ∧ (asyncInitPathEffect environ path false).spawnPath
          = some (String.mk (expandVars environ path.data)))
    ∧ ((asyncInitPathEffect environ path true).completed = false
      ∧ dictGet (asyncInitPathEffect environ path true).environ "PATH"
          = some (String.mk (expandVars environ path.data))) := by
  have hset := dictGet_dictSet environ "PATH" (String.mk (expandVars environ path.data)) "PATH"
  rw [if_pos rfl] at hset
  refine ⟨?_, ?_⟩
  · unfold asyncInitPathEffect
    rw [if_neg hpath, hold]
    refine ⟨rfl, ?_, hset⟩
    show dictGet (dictSet (dictSet environ "PATH"
        (String.mk (expandVars environ path.data))) "PATH" old) "PATH" = some old
    rw [dictGet_dictSet, if_pos rfl]
  · unfold asyncInitPathEffect
    rw [if_neg hpath, hold]
    exact ⟨rfl, hset⟩

/-- C8 (counterexample to the claim as stated): base `PATH=/usr/bin`,
`path=/opt/x`, and a raising launch — after the constructor exits by
exception, `PATH` is `/opt/x`, not its prior value, so the restore does
not happen on every exit path. -/
theorem c8_counterexample :
    dictGet (asyncInitPathEffect [("PATH", "/usr/bin")] "/opt/x" true).environ "PATH"
      = some "/opt/x"
    ∧ (asyncInitPathEffect [("PATH", "/usr/bin")] "/opt/x" true).completed = false
    ∧ dictGet [("PATH", "/usr/bin")] "PATH" ≠ some "/opt/x" := by
  have hexp : String.mk (expandVars [("PATH", "/usr/bin")] ("/opt/x" : String).data)
      = "/opt/x" := by
    rw [expandVars_no_dollar _ _ (by decide)]
  refine ⟨?_, ?_, by decide⟩
  · unfold asyncInitPathEffect
    rw [if_neg (by decide), show dictGet [(("PATH" : String), ("/usr/bin" : String))] "PATH"
        = some "/usr/bin" from by decide]
    simp only [if_pos rfl, hexp, dictGet_dictSet]
    rfl
  · unfold asyncInitPathEffect
    rw [if_neg (by decide), show dictGet [(("PATH" : String), ("/usr/bin" : String))] "PATH"
        = some "/usr/bin" from by decide]
    rfl

/-- Witness for `c8_path_restore_amended` at a concrete environment. -/
theorem c8_path_restore_amended_witness :
    (asyncInitPathEffect [("PATH", "/usr/bin")] "/opt/x" false).completed = true
    ∧ dictGet (asyncInitPathEffect [("PATH", "/usr/bin")] "/opt/x" false).environ "PATH"
      = some "/usr/bin" :=
  ⟨(c8_path_restore_amended [("PATH", "/usr/bin")] "/opt/x" "/usr/bin"
      (by decide) (by decide)).1.1,
   (c8_path_restore_amended [("PATH", "/usr/bin")] "/opt/x" "/usr/bin"
      (by decide) (by decide)).1.2.1⟩

/-! ## Log file naming and lifecycle (`Terminal.run` / `terminate`, C9)

`hashlib.sha1(cmd.encode()).hexdigest()` is embedded as SHA-1 (FIPS
180-4) over the UTF-8 bytes of the command, producing a 40-character
lowercase hex digest; the log file name is
`"\x7bhash\x7d_\x7btimestamp\x7d.log"`. -/

/-- UTF-8 encoding of one character (`str.encode()`). -/
def utf8Bytes (c : Char) : List Nat :=
  let n := c.toNat
  if n < 0x80 then [n]
  else if n < 0x800 then [0xC0 + n / 0x40, 0x80 + n % 0x40]
  else if n < 0x10000 then
    [0xE0 + n / 0x1000, 0x80 + (n / 0x40) % 0x40, 0x80 + n % 0x40]
  else [0xF0 + n / 0x40000, 0x80 + (n / 0x1000) % 0x40,
    0x80 + (n / 0x40) % 0x40, 0x80 + n % 0x40]

/-- UTF-8 bytes of a string. -/
def strUtf8 (s : String) : List Nat :=
  (s.data.map utf8Bytes).flatten

/-- 32-bit left rotation. -/
def rotl32 (n x : Nat) : Nat :=
  ((x <<< n) ||| (x >>> (32 - n))) % 2 ^ 32

/-- Big-endian byte serialization, `k` bytes. -/
def toBytesBE (k n : Nat) : List Nat :=
  (List.range k).map (fun i => (n >>> (8 * (k - 1 - i))) % 256)

/-- Big-endian word from bytes. -/
def fromBytesBE (bs : List Nat) : Nat :=
  bs.foldl (fun acc b => acc * 256 + b) 0

/-- SHA-1 padding: append `0x80`, zero bytes to reach 56 mod 64, then the
bit length as an 8-byte big-endian integer. -/
def sha1Pad (msg : List Nat) : List Nat :=
  msg ++ [0x80] ++ List.replicate ((119 - msg.length % 64) % 64) 0
    ++ toBytesBE 8 (msg.length * 8)

/-- Split into 64-byte blocks. -/
def chunks64 (l : List Nat) : List (List Nat) :=
  if h : l = [] then [] else l.take 64 :: chunks64 (l.drop 64)
termination_by l.length
decreasing_by
  simp_wf
  have hpos : 0 < l.length := List.length_pos.mpr h
  have hdrop : (l.drop 64).length = l.length - 64 := List.length_drop 64 l
  omega

/-- The 16 initial 32-bit words of a block, big-endian. -/
def words16 (chunk : List Nat) : List Nat :=
  (List.range 16).map (fun i => fromBytesBE ((chunk.drop (4 * i)).take 4))

/-- Message-schedule extension to 80 words. -/
def sha1Extend (ws : List Nat) : List Nat :=
  (List.range 64).foldl
    (fun acc _ =>
      let n := acc.length
      acc ++ [rotl32 1 ((acc.getD (n - 3) 0 ^^^ acc.getD (n - 8) 0)
        ^^^ (acc.getD (n - 14) 0 ^^^ acc.getD (n - 16) 0))])
    ws

/-- SHA-1 round function (complement realized as xor with all ones, exact
for 32-bit operands). -/
def sha1F (i b c d : Nat) : Nat :=
  if i < 20 then (b &&& c) ||| (((2 ^ 32 - 1) ^^^ b) &&& d)
  else if i < 40 then (b ^^^ c) ^^^ d
  else if i < 60 then ((b &&& c) ||| (b &&& d)) ||| (c &&& d)
  else (b ^^^ c) ^^^ d

/-- SHA-1 round constants. -/
def sha1K (i : Nat) : Nat :=
  if i < 20 then 0x5A827999
  else if i < 40 then 0x6ED9EBA1
  else if i < 60 then 0x8F1BBCDC
  else 0xCA62C1D6

/-- Compress one block into the running state. -/
def sha1Compress (ws : List Nat) (h : Nat × Nat × Nat × Nat × Nat) :
    Nat × Nat × Nat × Nat × Nat :=
  let st := (List.range 80).foldl
    (fun st i =>
      let temp := (rotl32 5 st.1 + sha1F i st.2.1 st.2.2.1 st.2.2.2.1
        + st.2.2.2.2 + sha1K i + ws.getD i 0) % 2 ^ 32
      (temp, st.1, rotl32 30 st.2.1, st.2.2.1, st.2.2.2.1))
    h
  ((h.1 + st.1) % 2 ^ 32, (h.2.1 + st.2.1) % 2 ^ 32,
    (h.2.2.1 + st.2.2.1) % 2 ^ 32, (h.2.2.2.1 + st.2.2.2.1) % 2 ^ 32,
    (h.2.2.2.2 + st.2.2.2.2) % 2 ^ 32)

/-- The full SHA-1 state over a byte message. -/
def sha1Digest (msg : List Nat) : Nat × Nat × Nat × Nat × Nat :=
  (chunks64 (sha1Pad msg)).foldl
    (fun h chunk => sha1Compress (sha1Extend (words16 chunk)) h)
    (0x67452301, 0xEFCDAB89, 0x98BADCFE, 0x10325476, 0xC3D2E1F0)

/-- One lowercase hex digit. -/
def hexDigitChar (n : Nat) : Char :=
  if n < 10 then Char.ofNat (48 + n) else Char.ofNat (87 + n)

/-- A 32-bit word as exactly 8 hex characters. -/
def toHex8 (n : Nat) : List Char :=
  (List.range 8).map (fun i => hexDigitChar ((n >>> (4 * (7 - i))) % 16))

/-- `hashlib.sha1(msg).hexdigest()`: 40 lowercase hex characters. -/
def sha1Hex (msg : List Nat) : List Char :=
  toHex8 (sha1Digest msg).1 ++ toHex8 (sha1Digest msg).2.1
    ++ toHex8 (sha1Digest msg).2.2.1 ++ toHex8 (sha1Digest msg).2.2.2.1
    ++ toHex8 (sha1Digest msg).2.2.2.2

/-- `Terminal.run` (terminal_exec.py lines 70-72): the log file name is
`"\x7bhash\x7d_\x7btimestamp\x7d.log"` with the SHA-1 hex digest of the
UTF-8 encoded command and the `%Y-%m-%d_%H-%M-%S.%f` timestamp. -/
def mkLogfileName (cmd timestamp : String) : String :=
  String.mk (sha1Hex (strUtf8 cmd)) ++ "_" ++ timestamp ++ ".log"

lemma toHex8_length (n : Nat) : (toHex8 n).length = 8 := by
  simp [toHex8]

lemma sha1Hex_length (m : List Nat) : (sha1Hex m).length = 40 := by
  simp [sha1Hex, toHex8_length]

lemma string_ext {s t : String} (h : s.data = t.data) : s = t := by
  cases s; cases t; exact congrArg String.mk h

/-- Distinct timestamps give distinct log file names: the digest prefix
has fixed length 40, so the name decomposes uniquely. -/
lemma mkLogfileName_timestamp_inj {c1 c2 t1 t2 : String}
    (h : mkLogfileName c1 t1 = mkLogfileName c2 t2) : t1 = t2 := by
  have hd : sha1Hex (strUtf8 c1) ++ ("_" ++ (t1 ++ ".log")).data
      = sha1Hex (strUtf8 c2) ++ ("_" ++ (t2 ++ ".log")).data := by
    have := congrArg String.data h
    simpa [mkLogfileName, String.data_append, List.append_assoc] using this
  have hlen : (sha1Hex (strUtf8 c1)).length = (sha1Hex (strUtf8 c2)).length := by
    rw [sha1Hex_length, sha1Hex_length]
  have htail := (List.append_inj hd hlen).2
  have h2 : t1.data ++ (".log" : String).data = t2.data ++ (".log" : String).data := by
    simpa [String.data_append] using htail
  exact string_ext (List.append_inj' h2 rfl).1

/-- The filesystem as a set of existing paths; `open(f, "a").close()`
creates the file when missing, `os.remove` deletes it. -/
def createFile (fs : List String) (f : String) : List String :=
  if f ∈ fs then fs else fs ++ [f]

def removeFile (fs : List String) (f : String) : List String :=
  fs.filter (fun g => g ≠ f)

/-- One `Terminal` run in progress: its log file name, the filesystem, and
whether the spawned process is still alive. -/
structure TermRunState where
  logfile : String
  fs : List String
  procAlive : Bool
deriving DecidableEq

/-- The ordered effects of `Terminal.run` (lines 68-76 then 153-158): the
log file is created first, the terminal process spawned second. -/
inductive RunFx where
  | fileCreated : String → RunFx
  | procSpawned : RunFx
deriving DecidableEq

def terminalRunFx (cmd timestamp : String) : List RunFx :=
  [.fileCreated (mkLogfileName cmd timestamp), .procSpawned]

/-- `Terminal.run`: derive the name, create the empty log file, spawn. -/
def terminalRunStep (fs : List String) (cmd timestamp : String) : TermRunState :=
  { logfile := mkLogfileName cmd timestamp
    fs := createFile fs (mkLogfileName cmd timestamp)
    procAlive := true }

/-- `Terminal.terminate` (lines 160-175): kill the process tree (when
running) and `clear_cache()` — remove the log file. -/
def terminalTerminate (st : TermRunState) : TermRunState :=
  { st with procAlive := false, fs := removeFile st.fs st.logfile }

/-- The tail of the `stdout` generator (lines 190-203): once
`self.running` is false the read loop exits and `clear_cache()` removes
the log file. -/
def tailerFinish (st : TermRunState) : TermRunState :=
  { st with fs := removeFile st.fs st.logfile }

/-- The spawned process exits on its own (normal run end). -/
def processExit (st : TermRunState) : TermRunState :=
  { st with procAlive := false }

lemma not_mem_removeFile (fs : List String) (f : String) : f ∉ removeFile fs f := by
  intro h
  rcases List.mem_filter.mp h with ⟨-, hne⟩
  simp at hne

lemma not_mem_removeFile_of_not_mem (fs : List String) (f g : String) (h : f ∉ fs) :
    f ∉ removeFile fs g := by
  intro hmem
  exact h (List.mem_filter.mp hmem).1

lemma not_mem_createFile (fs : List String) (f g : String) (hne : f ≠ g) (h : f ∉ fs) :
    f ∉ createFile fs g := by
  unfold createFile
  split
  · exact h
  · intro hmem
    rcases List.mem_append.mp hmem with hm | hm
    · exact h hm
    · exact hne (List.mem_singleton.mp hm)

/-- C9: the log name is the command digest plus the timestamp, so runs
with distinct timestamps get distinct names; `Terminal.run` creates the
file before it spawns the process; the file is gone after a normal end
(process exit, then the tailer loop's cleanup) and after a cancellation
(`terminate`); and in the two-sequential-runs scenario (first ends
normally, second is cancelled) neither log file remains. -/
theorem c9_logfile_lifecycle (fs0 : List String) (c1 c2 t1 t2 : String)
    (hts : t1 ≠ t2) (hfresh : mkLogfileName c2 t2 ∉ fs0) :
    mkLogfileName c1 t1 ≠ mkLogfileName c2 t2
    ∧ terminalRunFx c1 t1
        = [.fileCreated (mkLogfileName c1 t1), .procSpawned]
    ∧ (terminalRunStep fs0 c1 t1).logfile ∈ (terminalRunStep fs0 c1 t1).fs
    ∧ (terminalRunStep fs0 c1 t1).logfile
        ∉ (tailerFinish (processExit (terminalRunStep fs0 c1 t1))).fs
    ∧ (terminalRunStep fs0 c1 t1).logfile
        ∉ (terminalTerminate (terminalRunStep fs0 c1 t1)).fs
    ∧ (mkLogfileName c1 t1
          ∉ (terminalTerminate (terminalRunStep
              (tailerFinish (processExit (terminalRunStep fs0 c1 t1))).fs c2 t2)).fs
        ∧ mkLogfileName c2 t2
          ∉ (terminalTerminate (terminalRunStep
              (tailerFinish (processExit (terminalRunStep fs0 c1 t1))).fs c2 t2)).fs) := by
  have hne : mkLogfileName c1 t1 ≠ mkLogfileName c2 t2 :=
    fun h => hts (mkLogfileName_timestamp_inj h)
  refine ⟨hne, rfl, ?_, ?_, ?_, ?_, ?_⟩
  · show mkLogfileName c1 t1 ∈ createFile fs0 (mkLogfileName c1 t1)
    unfold createFile
    split
    · assumption
    · simp
  · exact not_mem_removeFile _ _
  · exact not_mem_removeFile _ _
  · show mkLogfileName c1 t1 ∉ removeFile (createFile
        (removeFile (createFile fs0 (mkLogfileName c1 t1)) (mkLogfileName c1 t1))
        (mkLogfileName c2 t2)) (mkLogfileName c2 t2)
    exact not_mem_removeFile_of_not_mem _ _ _
      (not_mem_createFile _ _ _ hne (not_mem_removeFile _ _))
  · exact not_mem_removeFile _ _

/-- Witness for `c9_logfile_lifecycle` at concrete commands, timestamps
and an empty starting cache. -/
theorem c9_logfile_lifecycle_witness :
    mkLogfileName "make" "2024-01-01_10-00-00.000001"
      ≠ mkLogfileName "make" "2024-01-01_10-00-05.000002"
    ∧ mkLogfileName "make" "2024-01-01_10-00-00.000001"
      ∉ (tailerFinish (processExit (terminalRunStep [] "make"
          "2024-01-01_10-00-00.000001"))).fs := by
  have h := c9_logfile_lifecycle [] "make" "make"
    "2024-01-01_10-00-00.000001" "2024-01-01_10-00-05.000002"
    (by decide) (by simp)
  exact ⟨h.1, h.2.2.2.1⟩

end BST
